import Mathlib

/-!
Verification of the event-grouping and metrics-aggregation engine of the
polymarket extractor (src/main.py), as a shallow embedding in Lean 4.

Conventions of the embedding:
* Python strings are Lean `String` / `List Char`; `str.split("-")` is `splitCh`
  and `"-".join` is `joinH`, implemented with exactly Python's semantics
  (no collapsing of empty fields, `"".split("-") == [""]`).
* Python floats are modelled as rationals; `round(x, 6)` is `round6`
  (round-half-up at six decimals; Python uses binary round-half-even, which
  agrees except at exact half-ulp ties, and no theorem below depends on a tie).
* Regular-expression token tests from main.py's compiled patterns are spelled
  out as boolean character tests over ASCII digits.
* JSON values are the inductive `Json`; Python truthiness is `jTruthy`.
* Paths that would raise in Python are embedded in `Except String`.
-/

/-! ### Slug tokenisation (main.py lines 114-123: slug.split and join) -/

/-- Model of Python `s.split(sep)` for a one-character separator: no field
collapsing, the empty string splits to one empty field. -/
def splitCh (sep : Char) : List Char → List (List Char)
  | [] => [[]]
  | c :: cs =>
    if c = sep then [] :: splitCh sep cs
    else
      match splitCh sep cs with
      | [] => [[c]]
      | t :: ts => (c :: t) :: ts

/-- Model of Python `"-".join(parts)`. -/
def joinH : List (List Char) → List Char
  | [] => []
  | [t] => t
  | t :: ts => t ++ '-' :: joinH ts

/-! ### Token matchers (main.py lines 93-96, the compiled regexes).
`\d` is modelled as an ASCII digit, the relevant case for slugs. -/

/-- Matcher for `ONE_TOKEN_DATE_RE`, the pattern for a full `YYYY-MM-DD`
token (four digits, hyphen, two digits, hyphen, two digits). -/
def isOneTokDate : List Char → Bool
  | [y1, y2, y3, y4, h1, m1, m2, h2, d1, d2] =>
    y1.isDigit && y2.isDigit && y3.isDigit && y4.isDigit && h1 == '-' &&
      m1.isDigit && m2.isDigit && h2 == '-' && d1.isDigit && d2.isDigit
  | _ => false

/-- Matcher for `YEAR_RE`: exactly four digits. -/
def isYearTok (t : List Char) : Bool :=
  t.length == 4 && t.all Char.isDigit

/-- Matcher for `MONTH_RE`: `0[1-9]` or `1[0-2]`. -/
def isMonthTok : List Char → Bool
  | [a, b] =>
    (a == '0' && decide ('1' ≤ b) && decide (b ≤ '9')) ||
      (a == '1' && decide ('0' ≤ b) && decide (b ≤ '2'))
  | _ => false

/-- Matcher for `DAY_RE`: `0[1-9]`, `[12]\d` or `3[01]` (no calendar check). -/
def isDayTok : List Char → Bool
  | [a, b] =>
    (a == '0' && decide ('1' ≤ b) && decide (b ≤ '9')) ||
      ((a == '1' || a == '2') && b.isDigit) ||
      (a == '3' && (b == '0' || b == '1'))
  | _ => false

/-! ### Last date span (main.py lines 98-112, `_find_last_date_span`) -/

/-- The three-token `YYYY`,`MM`,`DD` test of the scan loop at index `i`,
with the same bound check `i + 2 < n` the source uses. -/
def threeTokAt (parts : List (List Char)) (i : Nat) : Bool :=
  decide (i + 2 < parts.length) && isYearTok (parts.getD i []) &&
    isMonthTok (parts.getD (i + 1) []) && isDayTok (parts.getD (i + 2) [])

/-- Body of the scan loop of `_find_last_date_span` at index `i`: first the
one-token test may set the span, then the three-token test may overwrite it. -/
def spanStep (parts : List (List Char)) (acc : Option (Nat × Nat)) (i : Nat) :
    Option (Nat × Nat) :=
  let a1 := if isOneTokDate (parts.getD i []) then some (i, i) else acc
  if threeTokAt parts i then some (i, i + 2)
  else a1

/-- Model of `_find_last_date_span`: scan all indices left to right, keeping
the last match of either kind. -/
def findLastSpan (parts : List (List Char)) : Option (Nat × Nat) :=
  (List.range parts.length).foldl (spanStep parts) none

/-- Model of `base_slug` (main.py lines 114-123): empty slug gives the empty
string; otherwise split on hyphens, and if a span is found join the tokens up
to and including its end, else return the slug unchanged. -/
def base_slug (s : String) : String :=
  if s.toList = [] then String.mk []
  else
    match findLastSpan (splitCh '-' s.toList) with
    | some pr => String.mk (joinH ((splitCh '-' s.toList).take (pr.2 + 1)))
    | none => s

/-! ### Specification-side view of the span scan -/

/-- Some date span (one-token or three-token) begins at index `i`. -/
def hasSpanAt (parts : List (List Char)) (i : Nat) : Bool :=
  isOneTokDate (parts.getD i []) || threeTokAt parts i

/-- End index of the span beginning at `i` (the three-token reading wins when
both match, as in the source where the second `if` overwrites). -/
def endOf (parts : List (List Char)) (i : Nat) : Nat :=
  if threeTokAt parts i then i + 2 else i

lemma string_mk_toList (s : String) : String.mk s.toList = s := rfl

lemma spanStep_of_false (parts : List (List Char)) (acc : Option (Nat × Nat))
    (i : Nat) (h : hasSpanAt parts i = false) : spanStep parts acc i = acc := by
  simp only [hasSpanAt, Bool.or_eq_false_iff] at h
  simp only [spanStep, h.1, h.2]
  simp

lemma spanStep_of_true (parts : List (List Char)) (acc : Option (Nat × Nat))
    (i : Nat) (h : hasSpanAt parts i = true) :
    spanStep parts acc i = some (i, endOf parts i) := by
  cases hb : threeTokAt parts i with
  | true => simp [spanStep, hb, endOf]
  | false =>
    simp only [hasSpanAt, hb, Bool.or_false] at h
    simp only [spanStep, hb, h, endOf]
    simp

lemma hasSpanAt_of_ge_len (parts : List (List Char)) (i : Nat)
    (h : parts.length ≤ i) : hasSpanAt parts i = false := by
  have hd : parts.getD i [] = [] := List.getD_eq_default parts [] h
  have hb : ¬ (i + 2 < parts.length) := by omega
  simp only [hasSpanAt, threeTokAt, hd]
  simp [isOneTokDate, hb]

lemma lt_len_of_hasSpanAt (parts : List (List Char)) (i : Nat)
    (h : hasSpanAt parts i = true) : i < parts.length := by
  by_contra hc
  rw [hasSpanAt_of_ge_len parts i (by omega)] at h
  exact Bool.false_ne_true h

lemma scan_of_no_span (parts : List (List Char)) :
    ∀ n acc, (∀ i, i < n → hasSpanAt parts i = false) →
      (List.range n).foldl (spanStep parts) acc = acc := by
  intro n
  induction n with
  | zero => intro acc _; simp
  | succ m ih =>
    intro acc h
    rw [List.range_succ, List.foldl_append, List.foldl_cons, List.foldl_nil]
    rw [ih acc (fun i hi => h i (by omega))]
    exact spanStep_of_false parts acc m (h m (by omega))

lemma scan_of_last_span (parts : List (List Char)) :
    ∀ n acc i, i < n → hasSpanAt parts i = true →
      (∀ j, i < j → j < n → hasSpanAt parts j = false) →
      (List.range n).foldl (spanStep parts) acc = some (i, endOf parts i) := by
  intro n
  induction n with
  | zero => intro acc i hi; omega
  | succ m ih =>
    intro acc i hi hspan hlast
    rw [List.range_succ, List.foldl_append, List.foldl_cons, List.foldl_nil]
    by_cases him : i = m
    · subst him
      exact spanStep_of_true parts _ i hspan
    · have hi' : i < m := by omega
      rw [spanStep_of_false parts _ m (hlast m (by omega) (by omega))]
      exact ih acc i hi' hspan (fun j h1 h2 => hlast j h1 (by omega))

lemma findLastSpan_eq_none (parts : List (List Char))
    (h : ∀ i, i < parts.length → hasSpanAt parts i = false) :
    findLastSpan parts = none :=
  scan_of_no_span parts parts.length none h

lemma findLastSpan_eq_last (parts : List (List Char)) (i : Nat)
    (hspan : hasSpanAt parts i = true)
    (hlast : ∀ j, i < j → hasSpanAt parts j = false) :
    findLastSpan parts = some (i, endOf parts i) :=
  scan_of_last_span parts parts.length none i
    (lt_len_of_hasSpanAt parts i hspan) hspan
    (fun j h1 _ => hlast j h1)

/-- C1: `base_slug` is total; the empty slug yields the empty string; when no
date span (one-token `YYYY-MM-DD` or three consecutive
year/month/day tokens) occurs among the hyphen-split tokens the slug is
returned unchanged; when spans occur, the result is the hyphen-joined tokens
from the start through the end of the last (rightmost) such span. -/
theorem base_slug_spec (s : String) :
    (s.toList = [] → base_slug s = String.mk []) ∧
    ((∀ i, i < (splitCh '-' s.toList).length →
        hasSpanAt (splitCh '-' s.toList) i = false) → base_slug s = s) ∧
    (∀ i, hasSpanAt (splitCh '-' s.toList) i = true →
      (∀ j, j < (splitCh '-' s.toList).length → i < j →
        hasSpanAt (splitCh '-' s.toList) j = false) →
      base_slug s = String.mk (joinH ((splitCh '-' s.toList).take
        (endOf (splitCh '-' s.toList) i + 1)))) := by
  refine ⟨?_, ?_, ?_⟩
  · intro he
    cases s with
    | mk d =>
      have hd : d = [] := he
      subst hd
      decide
  · intro h
    by_cases he : s.toList = []
    · cases s with
      | mk d =>
        have hd : d = [] := he
        subst hd
        decide
    · simp only [base_slug, if_neg he]
      rw [findLastSpan_eq_none (splitCh '-' s.toList) h]
  · intro i hspan hlastb
    have hlast : ∀ j, i < j → hasSpanAt (splitCh '-' s.toList) j = false := by
      intro j hj
      by_cases hjl : j < (splitCh '-' s.toList).length
      · exact hlastb j hjl hj
      · exact hasSpanAt_of_ge_len _ j (by omega)
    have hne : s.toList ≠ [] := by
      intro he
      rw [he] at hspan
      have h0 : i < (splitCh '-' ([] : List Char)).length :=
        lt_len_of_hasSpanAt _ i hspan
      have h1 : i = 0 := by
        simp [splitCh] at h0
        omega
      rw [h1] at hspan
      have h2 : hasSpanAt (splitCh '-' ([] : List Char)) 0 = false := by decide
      rw [h2] at hspan
      exact Bool.false_ne_true hspan
    simp only [base_slug, if_neg hne]
    rw [findLastSpan_eq_last (splitCh '-' s.toList) i hspan hlast]

def exSlugA : String := "event-2025-06-01-yes"
def exKeyA : String := "event-2025-06-01"

/-- Witness for C1: the slug with a trailing outcome qualifier is cut right
after its date span. -/
theorem base_slug_spec_witness : base_slug exSlugA = exKeyA := by
  have h := (base_slug_spec exSlugA).2.2 1 (by decide) (by decide)
  exact h.trans (by decide)

/-! ### Appending suffix tokens after the date anchor (claim C4) -/

lemma toList_mk (l : List Char) : (String.mk l).toList = l := rfl

lemma splitCh_ne_nil (sep : Char) (l : List Char) : splitCh sep l ≠ [] := by
  induction l with
  | nil => simp [splitCh]
  | cons c cs ih =>
    simp only [splitCh]
    by_cases hc : c = sep
    · simp [hc]
    · simp only [if_neg hc]
      cases hsp : splitCh sep cs with
      | nil => exact absurd hsp ih
      | cons t ts => simp

lemma splitCh_append_sep (sep : Char) (a b : List Char) :
    splitCh sep (a ++ sep :: b) = splitCh sep a ++ splitCh sep b := by
  induction a with
  | nil => simp [splitCh]
  | cons c cs ih =>
    simp only [List.cons_append, splitCh]
    by_cases hc : c = sep
    · simp [hc, ih]
    · simp only [if_neg hc]
      obtain ⟨t, ts, hts⟩ := List.exists_cons_of_ne_nil (splitCh_ne_nil sep cs)
      have hcomb : splitCh sep (cs ++ sep :: b) = t :: (ts ++ splitCh sep b) := by
        rw [ih, hts]
        simp
      simp only [List.append_eq]
      rw [hcomb, hts]
      simp

lemma splitCh_clean (sep : Char) (t : List Char) (h : sep ∉ t) :
    splitCh sep t = [t] := by
  induction t with
  | nil => simp [splitCh]
  | cons c cs ih =>
    have hc : ¬ c = sep := by
      intro hh
      exact h (by rw [hh]; exact List.mem_cons_self _ _)
    have ih' := ih (fun hm => h (List.mem_cons_of_mem c hm))
    simp [splitCh, hc, ih']

lemma splitCh_joinH_clean (sfx : List (List Char)) (hne : sfx ≠ [])
    (hcl : ∀ t ∈ sfx, '-' ∉ t) : splitCh '-' (joinH sfx) = sfx := by
  induction sfx with
  | nil => exact absurd rfl hne
  | cons t ts ih =>
    cases ts with
    | nil =>
      simp only [joinH]
      exact splitCh_clean '-' t (hcl t (List.mem_cons_self _ _))
    | cons u us =>
      simp only [joinH]
      rw [splitCh_append_sep, splitCh_clean '-' t (hcl t (List.mem_cons_self _ _)),
        ih (by simp) (fun x hx => hcl x (List.mem_cons_of_mem t hx))]
      simp

lemma mem_of_isOneTokDate (t : List Char) (h : isOneTokDate t = true) :
    '-' ∈ t := by
  unfold isOneTokDate at h
  split at h
  · simp only [Bool.and_eq_true, beq_iff_eq] at h
    have hh : _ = '-' := h.1.1.1.1.1.2
    rw [← hh]
    simp
  · exact absurd h (by simp)

lemma isOneTokDate_clean (t : List Char) (h : '-' ∉ t) :
    isOneTokDate t = false := by
  cases hb : isOneTokDate t with
  | false => rfl
  | true => exact absurd (mem_of_isOneTokDate t hb) h

lemma getD_append_lt {α : Type} (l l' : List α) (d : α) (n : Nat)
    (h : n < l.length) : (l ++ l').getD n d = l.getD n d := by
  rw [List.getD_eq_getElem (l ++ l') d (by simp; omega), List.getD_eq_getElem l d h]
  exact List.getElem_append_left h

lemma getD_append_mem {α : Type} (l l' : List α) (d : α) (n : Nat)
    (h1 : l.length ≤ n) (h2 : n < l.length + l'.length) :
    (l ++ l').getD n d ∈ l' := by
  have hl : n < (l ++ l').length := by simp; omega
  rw [List.getD_eq_getElem (l ++ l') d hl]
  rw [List.getElem_append_right h1]
  exact List.getElem_mem _

lemma threeTokAt_append (P sfx : List (List Char))
    (hcl : ∀ t ∈ sfx, '-' ∉ t ∧ isDayTok t = false) (j : Nat) :
    threeTokAt (P ++ sfx) j = threeTokAt P j := by
  by_cases hb : j + 2 < P.length
  · have e0 := getD_append_lt P sfx [] j (by omega)
    have e1 := getD_append_lt P sfx [] (j + 1) (by omega)
    have e2 := getD_append_lt P sfx [] (j + 2) (by omega)
    have hb' : j + 2 < P.length + sfx.length := by omega
    simp only [threeTokAt, e0, e1, e2, List.length_append]
    simp [hb, hb']
  · have hPf : threeTokAt P j = false := by simp [threeTokAt, hb]
    rw [hPf]
    by_cases hb2 : j + 2 < P.length + sfx.length
    · have hmem : (P ++ sfx).getD (j + 2) [] ∈ sfx :=
        getD_append_mem P sfx [] (j + 2) (by omega) hb2
      have hday : isDayTok ((P ++ sfx).getD (j + 2) []) = false := (hcl _ hmem).2
      simp only [List.getD_eq_getElem?_getD] at hday
      simp [threeTokAt, hday]
    · simp [threeTokAt, List.length_append, hb2]

lemma oneTokAt_append (P sfx : List (List Char))
    (hcl : ∀ t ∈ sfx, '-' ∉ t ∧ isDayTok t = false) (j : Nat) :
    isOneTokDate ((P ++ sfx).getD j []) = isOneTokDate (P.getD j []) := by
  by_cases hj : j < P.length
  · rw [getD_append_lt P sfx [] j hj]
  · rw [List.getD_eq_default P [] (by omega)]
    by_cases hj2 : j < P.length + sfx.length
    · have hmem : (P ++ sfx).getD j [] ∈ sfx :=
        getD_append_mem P sfx [] j (by omega) hj2
      rw [isOneTokDate_clean _ (hcl _ hmem).1]
      decide
    · rw [List.getD_eq_default (P ++ sfx) [] (by simp; omega)]

lemma hasSpanAt_append (P sfx : List (List Char))
    (hcl : ∀ t ∈ sfx, '-' ∉ t ∧ isDayTok t = false) (j : Nat) :
    hasSpanAt (P ++ sfx) j = hasSpanAt P j := by
  simp only [hasSpanAt, threeTokAt_append P sfx hcl j, oneTokAt_append P sfx hcl j]

lemma endOf_append (P sfx : List (List Char))
    (hcl : ∀ t ∈ sfx, '-' ∉ t ∧ isDayTok t = false) (j : Nat) :
    endOf (P ++ sfx) j = endOf P j := by
  simp only [endOf, threeTokAt_append P sfx hcl j]

lemma endOf_lt_len (P : List (List Char)) (i : Nat)
    (h : hasSpanAt P i = true) : endOf P i < P.length := by
  cases hb : threeTokAt P i with
  | true =>
    have hlt : i + 2 < P.length := by
      simp only [threeTokAt, Bool.and_eq_true, decide_eq_true_eq] at hb
      exact hb.1.1.1
    simp [endOf, hb, hlt]
  | false =>
    simp only [endOf, hb]
    simp only [Bool.false_eq_true, if_false]
    exact lt_len_of_hasSpanAt P i h

lemma toList_ne_nil_of_span (s : String) (i : Nat)
    (hspan : hasSpanAt (splitCh '-' s.toList) i = true) : s.toList ≠ [] := by
  intro he
  rw [he] at hspan
  have h0 : i < (splitCh '-' ([] : List Char)).length :=
    lt_len_of_hasSpanAt _ i hspan
  have h1 : i = 0 := by
    simp [splitCh] at h0
    omega
  rw [h1] at hspan
  have h2 : hasSpanAt (splitCh '-' ([] : List Char)) 0 = false := by decide
  rw [h2] at hspan
  exact Bool.false_ne_true hspan

def exSlugB : String := "a-2025-06-01"
def exSufB : List (List Char) := [['2', '0', '2', '6'], ['0', '7'], ['0', '2']]
def exSufW : List (List Char) := [['y', 'e', 's']]

/-- Counterexample for C4 as stated: the slug `a-2025-06-01` contains a date
span, yet appending the hyphen-delimited suffix tokens `2026`, `07`, `02`
changes the computed key (the suffix forms a new, later date span, so the
extended slug keeps everything). -/
theorem base_slug_suffix_cex :
    hasSpanAt (splitCh '-' exSlugB.toList) 1 = true ∧
    base_slug (String.mk (exSlugB.toList ++ '-' :: joinH exSufB)) ≠
      base_slug exSlugB := by
  decide

def spanHere (parts : List (List Char)) : Nat → Prop :=
  fun j => hasSpanAt parts j = true

instance spanHereDec (parts : List (List Char)) : DecidablePred (spanHere parts) :=
  fun j => by
    unfold spanHere
    infer_instance

lemma exists_last_span (parts : List (List Char)) (i : Nat)
    (hspan : hasSpanAt parts i = true) :
    ∃ g, hasSpanAt parts g = true ∧
      ∀ j, g < j → hasSpanAt parts j = false := by
  refine ⟨Nat.findGreatest (spanHere parts) parts.length, ?_, ?_⟩
  · exact Nat.findGreatest_spec (le_of_lt (lt_len_of_hasSpanAt parts i hspan))
      (show spanHere parts i from hspan)
  · intro j hj
    by_cases hjl : j ≤ parts.length
    · have hng : ¬ spanHere parts j := Nat.findGreatest_is_greatest hj hjl
      unfold spanHere at hng
      simpa using hng
    · exact hasSpanAt_of_ge_len parts j (by omega)

/-- C4 (amended): for every slug containing a date span, appending
hyphen-delimited suffix tokens does not change `base_slug`, provided the
appended tokens contain no hyphen and none of them matches the two-digit day
pattern (so that the suffix cannot complete or introduce a new, later date
span — without this proviso the claim fails, see the counterexample). -/
theorem base_slug_clean_suffix (s : String) (sfx : List (List Char)) (i : Nat)
    (hspan : hasSpanAt (splitCh '-' s.toList) i = true)
    (hne : sfx ≠ [])
    (hcl : ∀ t ∈ sfx, '-' ∉ t ∧ isDayTok t = false) :
    base_slug (String.mk (s.toList ++ '-' :: joinH sfx)) = base_slug s := by
  have hsplit : splitCh '-' (s.toList ++ '-' :: joinH sfx) =
      splitCh '-' s.toList ++ sfx := by
    rw [splitCh_append_sep,
      splitCh_joinH_clean sfx hne (fun t ht => (hcl t ht).1)]
  obtain ⟨g, hg0, hglast⟩ := exists_last_span (splitCh '-' s.toList) i hspan
  have hCspan : hasSpanAt (splitCh '-' s.toList ++ sfx) g = true := by
    rw [hasSpanAt_append _ _ hcl]
    exact hg0
  have hClast : ∀ j, g < j →
      hasSpanAt (splitCh '-' s.toList ++ sfx) j = false := by
    intro j hj
    rw [hasSpanAt_append _ _ hcl]
    exact hglast j hj
  have hPfind := findLastSpan_eq_last (splitCh '-' s.toList) g hg0 hglast
  have hCfind := findLastSpan_eq_last (splitCh '-' s.toList ++ sfx) g hCspan hClast
  have hsne : s.toList ≠ [] := toList_ne_nil_of_span s i hspan
  have hLne : ¬ (s.toList ++ '-' :: joinH sfx = []) := by simp
  have hEnd := endOf_append (splitCh '-' s.toList) sfx hcl g
  have hTake : endOf (splitCh '-' s.toList) g + 1 ≤ (splitCh '-' s.toList).length :=
    endOf_lt_len _ _ hg0
  simp only [base_slug, toList_mk, if_neg hLne, if_neg hsne]
  rw [hsplit, hCfind, hPfind, hEnd]
  simp only [List.take_append_of_le_length hTake]

/-- Witness for the amended C4: appending the clean suffix token `yes` after
the dated slug `a-2025-06-01` leaves the key unchanged. -/
theorem base_slug_clean_suffix_witness :
    base_slug (String.mk (exSlugB.toList ++ '-' :: joinH exSufW)) =
      base_slug exSlugB :=
  base_slug_clean_suffix exSlugB exSufW 1 (by decide) (by decide) (by decide)

/-! ### JSON values and Python-style access (response handling) -/

/-- JSON values as decoded by `r.json()`. -/
inductive Json where
  | jnull
  | jbool (b : Bool)
  | jnum (q : Rat)
  | jstr (s : String)
  | jarr (l : List Json)
  | jobj (o : List (String × Json))

/-- Python `dict.get`: first binding of the key, if any. -/
def jGet : List (String × Json) → String → Option Json
  | [], _ => none
  | (k, v) :: rest, key => if k = key then some v else jGet rest key

/-- Python truthiness of a JSON value. -/
def jTruthy : Json → Bool
  | .jnull => false
  | .jbool b => b
  | .jnum q => decide (q ≠ 0)
  | .jstr s => !s.isEmpty
  | .jarr l => !l.isEmpty
  | .jobj o => !o.isEmpty

def dataKey : String := "data"
def typeErrMsg : String := "TypeError"
def attrErrMsg : String := "AttributeError"

/-- Shape normalisation of the tag and market listing paths (main.py lines
55-56 and 84-85): a list is kept, a dict is replaced by its `data` value
(default empty list), anything else becomes the empty list. -/
def normListShape : Json → Json
  | .jarr l => .jarr l
  | .jobj o => (jGet o dataKey).getD (.jarr [])
  | _ => .jarr []

/-- Record consumption in `find_tags_by_query` (lines 57-60): the normalised
value is iterated and each element queried with `.get`, then measured with
`len`. Iterating a non-iterable raises TypeError; iterating a non-empty
string or dict yields strings, whose `.get` raises AttributeError; an empty
string or dict iterates to nothing and proceeds. -/
def tagsPageRecords (resp : Json) : Except String (List Json) :=
  match normListShape resp with
  | .jarr l => .ok l
  | .jstr s => if s.isEmpty then .ok [] else .error attrErrMsg
  | .jobj o => if o.isEmpty then .ok [] else .error attrErrMsg
  | _ => .error typeErrMsg

/-- Record consumption in `fetch_markets_by_tag` (line 86): `out.extend(data)`
accepts any iterable, so a string contributes its characters and a dict its
keys as spurious records; a non-iterable raises TypeError. -/
def marketsPageRecords (resp : Json) : Except String (List Json) :=
  match normListShape resp with
  | .jarr l => .ok l
  | .jstr s => .ok (s.toList.map (fun c => .jstr (String.mk [c])))
  | .jobj o => .ok (o.map (fun kv => .jstr kv.1))
  | _ => .error typeErrMsg

/-- The `data` extraction of the trades path (main.py line 148): a dict is
replaced by its `data` value (None when missing), anything else is passed
through unchanged. -/
def tradeData : Json → Json
  | .jobj o => (jGet o dataKey).getD .jnull
  | resp => resp

/-- Record consumption in `fetch_trades_for_market` (lines 149-151): a falsy
value ends the page with no records (`if not data: break`); a truthy value is
iterated and elements queried with `.get`. -/
def tradePageRecords (resp : Json) : Except String (List Json) :=
  if jTruthy (tradeData resp) then
    match tradeData resp with
    | .jarr l => .ok l
    | .jstr _ => .error attrErrMsg
    | .jobj _ => .error attrErrMsg
    | _ => .error typeErrMsg
  else .ok []

def isArr : Json → Bool
  | .jarr _ => true
  | _ => false

def isObj : Json → Bool
  | .jobj _ => true
  | _ => false

/-- Counterexample for C7 as stated: a response that is an object whose
`data` value is the number 5 is neither a bare array nor an object with a
data array, yet all three record-consuming paths raise a type error on it
(a bare 5 for the trades path) instead of treating it as an empty record
set. -/
theorem shape_tolerance_cex :
    tagsPageRecords (.jobj [(dataKey, .jnum 5)]) = .error typeErrMsg ∧
    marketsPageRecords (.jobj [(dataKey, .jnum 5)]) = .error typeErrMsg ∧
    tradePageRecords (.jnum 5) = .error typeErrMsg :=
  ⟨rfl, rfl, rfl⟩

/-- C7 (amended): responses that are neither an array nor an object are
treated as an empty record set by the tag and market listing paths, as are
objects lacking a `data` key; in the trades path any response whose extracted
data value is falsy ends the page with no records; but an object whose `data`
value is truthy and not an array (for trades, also a bare truthy non-array
response) raises a type error rather than being treated as empty. -/
theorem shape_tolerance :
    (∀ resp : Json, isArr resp = false → isObj resp = false →
      tagsPageRecords resp = .ok [] ∧ marketsPageRecords resp = .ok []) ∧
    (∀ o, jGet o dataKey = none →
      tagsPageRecords (.jobj o) = .ok [] ∧
        marketsPageRecords (.jobj o) = .ok []) ∧
    (∀ resp : Json, jTruthy (tradeData resp) = false →
      tradePageRecords resp = .ok []) ∧
    tagsPageRecords (.jobj [(dataKey, .jnum 5)]) = .error typeErrMsg ∧
    tradePageRecords (.jnum 5) = .error typeErrMsg := by
  refine ⟨?_, ?_, ?_, rfl, rfl⟩
  · intro resp h1 h2
    cases resp with
    | jnull => exact ⟨rfl, rfl⟩
    | jbool b => exact ⟨rfl, rfl⟩
    | jnum q => exact ⟨rfl, rfl⟩
    | jstr s => exact ⟨rfl, rfl⟩
    | jarr l => simp [isArr] at h1
    | jobj o => simp [isObj] at h2
  · intro o h
    constructor
    · simp [tagsPageRecords, normListShape, h]
    · simp [marketsPageRecords, normListShape, h]
  · intro resp h
    simp [tradePageRecords, h]

/-- Witness for the amended C7: a bare number is an empty tag page, and a
null response ends a trade page with no records. -/
theorem shape_tolerance_witness :
    tagsPageRecords (.jnum 7) = .ok [] ∧ tradePageRecords .jnull = .ok [] :=
  ⟨(shape_tolerance.1 (.jnum 7) rfl rfl).1, shape_tolerance.2.2.1 .jnull rfl⟩

/-! ### Resilient fetcher `_get_json` (main.py lines 33-46) -/

/-- Errors a single attempt can record: the explicit RuntimeError raised for
a retryable status, the HTTPError from `raise_for_status`, or an exception
from the transport or JSON decoding. -/
inductive PyErr where
  | runtimeErr (status : Nat)
  | httpErr (status : Nat)
  | netErr (msg : String)

/-- What one call of the underlying fetcher produces: an exception, or a
response with a status code and a decoded body. -/
inductive FetchResult where
  | exc (msg : String)
  | resp (status : Nat) (body : Json)

def MAX_RETRIES : Nat := 5
def retryableStatuses : List Nat := [408, 429, 500, 502, 503, 504]

/-- Outcome of one attempt of the loop body (lines 36-42): 2xx returns the
body; a retryable status raises RuntimeError; `raise_for_status` raises for
status at least 400; any other non-2xx (a 3xx) raises nothing, so the
attempt ends without recording an error. -/
def attemptOutcome : FetchResult → Except (Option PyErr) Json
  | .exc m => .error (some (.netErr m))
  | .resp s b =>
    if 200 ≤ s ∧ s < 300 then .ok b
    else if s ∈ retryableStatuses then .error (some (.runtimeErr s))
    else if 400 ≤ s then .error (some (.httpErr s))
    else .error none

/-- `last_error = e` happens only inside `except`, so an attempt that raises
nothing keeps the previous value. -/
def updErr (le : Option PyErr) (oe : Option PyErr) : Option PyErr :=
  match oe with
  | some e => some e
  | none => le

/-- The retry loop (lines 35-45): attempt number `k`, remaining attempts,
carried `last_error`, and a count of attempts made; exhaustion raises the
terminal error wrapping `last_error`. -/
def loopAux (fetch : Nat → FetchResult) :
    Nat → Nat → Option PyErr → Nat → Except (Option PyErr) Json × Nat
  | _, 0, le, used => (.error le, used)
  | k, r + 1, le, used =>
    match attemptOutcome (fetch k) with
    | .ok b => (.ok b, used + 1)
    | .error oe => loopAux fetch (k + 1) r (updErr le oe) (used + 1)

/-- Model of `_get_json`, also reporting how many attempts were consumed. -/
def runGetJson (fetch : Nat → FetchResult) : Except (Option PyErr) Json × Nat :=
  loopAux fetch 1 MAX_RETRIES none 0

def isOkR : Except (Option PyErr) Json → Bool
  | .ok _ => true
  | .error _ => false

/-- The error recorded by one attempt, if any. -/
def attemptErr (fr : FetchResult) : Option PyErr :=
  match attemptOutcome fr with
  | .ok _ => none
  | .error oe => oe

/-- The value `last_error` holds after a run of failing attempts. -/
def errFold (fetch : Nat → FetchResult) : Nat → Nat → Option PyErr → Option PyErr
  | _, 0, le => le
  | k, r + 1, le => errFold fetch (k + 1) r (updErr le (attemptErr (fetch k)))

/-- The last observed error across the whole attempt budget. -/
def lastObservedError (fetch : Nat → FetchResult) : Option PyErr :=
  errFold fetch 1 MAX_RETRIES none

lemma loopAux_exhaust (fetch : Nat → FetchResult) :
    ∀ r k le used,
      (∀ j, k ≤ j → j < k + r → isOkR (attemptOutcome (fetch j)) = false) →
      loopAux fetch k r le used = (.error (errFold fetch k r le), used + r) := by
  intro r
  induction r with
  | zero => intro k le used _; rfl
  | succ m ih =>
    intro k le used h
    have hk : isOkR (attemptOutcome (fetch k)) = false := h k (by omega) (by omega)
    cases ho : attemptOutcome (fetch k) with
    | ok b =>
      rw [ho] at hk
      exact absurd hk (by simp [isOkR])
    | error oe =>
      have hae : attemptErr (fetch k) = oe := by simp [attemptErr, ho]
      simp only [loopAux, ho]
      rw [ih (k + 1) (updErr le oe) (used + 1) (fun j h1 h2 => h j (by omega) (by omega))]
      simp only [errFold, hae]
      have hu : used + 1 + m = used + (m + 1) := by omega
      rw [hu]

lemma getjson_exhaust_general (fetch : Nat → FetchResult)
    (h : ∀ j, j ≤ MAX_RETRIES → 1 ≤ j → isOkR (attemptOutcome (fetch j)) = false) :
    runGetJson fetch = (.error (lastObservedError fetch), MAX_RETRIES) := by
  have hx := loopAux_exhaust fetch MAX_RETRIES 1 none 0
    (fun j h1 h2 => h j (by omega) (by omega))
  simpa [runGetJson, lastObservedError] using hx

lemma errFold_const_some (fr : FetchResult) (e : PyErr)
    (h : attemptErr fr = some e) :
    ∀ r k le, 0 < r → errFold (fun _ => fr) k r le = some e := by
  intro r
  induction r with
  | zero => intro k le h0; omega
  | succ m ih =>
    intro k le _
    simp only [errFold, h, updErr]
    cases m with
    | zero => rfl
    | succ m' => exact ih (k + 1) (some e) (by omega)

lemma errFold_const_none (fr : FetchResult) (h : attemptErr fr = none) :
    ∀ r k le, errFold (fun _ => fr) k r le = le := by
  intro r
  induction r with
  | zero => intro k le; rfl
  | succ m ih =>
    intro k le
    simp only [errFold, h, updErr]
    exact ih (k + 1) le

/-- C8: when every attempt fails, `_get_json` consumes the whole attempt
budget and raises a terminal failure wrapping the last observed error; in
particular a fetcher that always returns a non-2xx, non-retryable status
exhausts after exactly `MAX_RETRIES` attempts, its terminal error wrapping
the HTTPError of the final attempt when the status is at least 400 (a 3xx
status raises nothing, so then nothing is wrapped). -/
theorem getjson_exhaustion :
    (∀ fetch : Nat → FetchResult,
      (∀ j, j ≤ MAX_RETRIES → 1 ≤ j → isOkR (attemptOutcome (fetch j)) = false) →
      runGetJson fetch = (.error (lastObservedError fetch), MAX_RETRIES)) ∧
    (∀ (s : Nat) (body : Json), ¬ (200 ≤ s ∧ s < 300) → s ∉ retryableStatuses →
      runGetJson (fun _ => .resp s body) =
        (.error (if 400 ≤ s then some (.httpErr s) else none), MAX_RETRIES)) := by
  constructor
  · intro fetch h
    exact getjson_exhaust_general fetch h
  · intro s body h2xx hnr
    by_cases h4 : 400 ≤ s
    · have hout : attemptOutcome (.resp s body) = .error (some (.httpErr s)) := by
        simp [attemptOutcome, h2xx, hnr, h4]
      have hgen := getjson_exhaust_general (fun _ => .resp s body)
        (fun j _ _ => by simp [isOkR, hout])
      rw [hgen]
      have hlast : lastObservedError (fun _ => .resp s body) = some (.httpErr s) := by
        unfold lastObservedError
        exact errFold_const_some _ _ (by simp [attemptErr, hout]) MAX_RETRIES 1 none
          (by decide)
      rw [hlast, if_pos h4]
    · have hout : attemptOutcome (.resp s body) = .error none := by
        simp [attemptOutcome, h2xx, hnr, h4]
      have hgen := getjson_exhaust_general (fun _ => .resp s body)
        (fun j _ _ => by simp [isOkR, hout])
      rw [hgen]
      have hlast : lastObservedError (fun _ => .resp s body) = none := by
        unfold lastObservedError
        exact errFold_const_none _ (by simp [attemptErr, hout]) MAX_RETRIES 1 none
      rw [hlast, if_neg h4]

/-- Witness for C8: a constant 404 fetcher exhausts after exactly five
attempts wrapping the final HTTPError, and a constant 304 fetcher exhausts
after five attempts with no recorded error. -/
theorem getjson_exhaustion_witness :
    runGetJson (fun _ => .resp 404 .jnull) = (.error (some (.httpErr 404)), 5) ∧
    runGetJson (fun _ => .resp 304 .jnull) = (.error none, 5) := by
  constructor
  · have h := getjson_exhaustion.2 404 .jnull (by omega) (by decide)
    rw [h]
    rfl
  · have h := getjson_exhaustion.2 304 .jnull (by omega) (by decide)
    rw [h]
    rfl

/-! ### Trade-window filter (main.py lines 151-154) -/

def tsKey : String := "timestamp"

/-- Python numeric view of a JSON value as tested by
`isinstance(ts, (int, float))`: numbers are numeric, and so are booleans
(Python's bool is a subtype of int, True comparing as 1 and False as 0);
everything else, including None for a missing key, is not. -/
def pyNum : Json → Option Rat
  | .jnum q => some q
  | .jbool b => some (if b then 1 else 0)
  | _ => none

/-- The kept-record condition of the pagination loop (lines 152-153):
`START_TS is None or (isinstance(ts, (int, float)) and ts >= START_TS)`,
where `ts = t.get("timestamp")`. -/
def pyCondKeep (startTs : Option Rat) (o : List (String × Json)) : Bool :=
  match startTs with
  | none => true
  | some s0 =>
    match jGet o tsKey with
    | some v =>
      match pyNum v with
      | some q => decide (s0 ≤ q)
      | none => false
    | none => false

/-- The accumulation loop of `fetch_trades_for_market` over one page: kept
records are appended to the running list in order. -/
def windowFilterLoop (startTs : Option Rat) (acc : List (List (String × Json)))
    (data : List (List (String × Json))) : List (List (String × Json)) :=
  data.foldl (fun a t => if pyCondKeep startTs t then a ++ [t] else a) acc

lemma foldl_push_filter {α : Type} (p : α → Bool) :
    ∀ (l acc : List α),
      l.foldl (fun a t => if p t then a ++ [t] else a) acc = acc ++ l.filter p := by
  intro l
  induction l with
  | nil => intro acc; simp
  | cons x xs ih =>
    intro acc
    simp only [List.foldl_cons]
    cases hp : p x with
    | true =>
      rw [ih]
      simp [List.filter_cons, hp]
    | false =>
      rw [ih]
      simp [List.filter_cons, hp]

/-- C9: with a configured lower bound the window filter keeps exactly the
received records whose timestamp field holds a numeric value at least the
bound (records with a missing or non-numeric timestamp are discarded, not
only those strictly below the bound), and with the bound unset every record
is kept. Numeric is Python's `isinstance(ts, (int, float))`, under which
booleans also count. -/
theorem window_filter_spec (s0 : Rat) (recs : List (List (String × Json))) :
    windowFilterLoop (some s0) [] recs =
      recs.filter (fun o =>
        match (jGet o tsKey).bind pyNum with
        | some q => decide (s0 ≤ q)
        | none => false) ∧
    windowFilterLoop none [] recs = recs := by
  constructor
  · rw [windowFilterLoop, foldl_push_filter]
    rw [List.nil_append]
    apply List.filter_congr
    intro o _
    cases h : jGet o tsKey with
    | none => simp [pyCondKeep, h]
    | some v => simp [pyCondKeep, h]
  · rw [windowFilterLoop, foldl_push_filter]
    simp [pyCondKeep]

/-! ### Trade metrics calculator `compute_metrics` (main.py lines 160-192) -/

attribute [local semireducible] Rat.mul Rat.inv Rat.add Rat.sub

/-- Python `str.lower()` restricted to ASCII, the relevant case for wallet
addresses. -/
def pyLower (s : String) : String :=
  String.mk (s.toList.map Char.toLower)

/-- Python `round(x, 6)`. Rounds half up where Python rounds half to even at
the binary-float level; the two agree away from exact half-ulp ties and no
result below sits on a tie. -/
def round6 (q : Rat) : Rat :=
  ((round (q * 1000000) : Int) : Rat) / 1000000

/-- Python `int(x)`: truncation toward zero. -/
def pyInt (q : Rat) : Int :=
  if q < 0 then ⌈q⌉ else ⌊q⌋

/-- One trade record, per the data model: `size` and `price` (absent keys
default to 0 through `.get(..., 0)`), an optional wallet string, and a
timestamp that is `none` when missing or non-numeric (the source guards it
with `isinstance(ts, (int, float))`). -/
structure Trade where
  size : Option Rat
  price : Option Rat
  proxyWallet : Option String
  timestamp : Option Rat
deriving DecidableEq

/-- The metrics dict returned by `compute_metrics` (the `_traders` set
included). -/
structure MetricsBundle where
  traders_count : Nat
  total_trades : Nat
  total_volume_usd : Rat
  avg_trade_size_usd : Rat
  avg_volume_per_trader : Rat
  avg_trades_per_day : Rat
  min_trade_size_usd : Rat
  max_trade_size_usd : Rat
  active_days : Int
  traders_set : Finset String
deriving DecidableEq

def zeroBundle : MetricsBundle :=
  ⟨0, 0, 0, 0, 0, 0, 0, 0, 0, ∅⟩

/-- USD notional of one trade: `abs(size * price)` with falsy-or-missing
values coerced to 0 (`float(tr.get("size", 0) or 0)`). -/
def usdOf (tr : Trade) : Rat :=
  |tr.size.getD 0 * tr.price.getD 0|

/-- Wallet handling: `addr = (tr.get("proxyWallet") or "").lower()`, added to
the set only when non-empty. -/
def traderStep (s : Finset String) (tr : Trade) : Finset String :=
  let addr := pyLower (tr.proxyWallet.getD (String.mk []))
  if addr = String.mk [] then s else insert addr s

/-- `if first_ts is None or ts < first_ts: first_ts = ts`. -/
def tsMinStep (f : Option Rat) (tr : Trade) : Option Rat :=
  match tr.timestamp with
  | none => f
  | some t =>
    match f with
    | none => some t
    | some v => if t < v then some t else some v

/-- `if last_ts is None or ts > last_ts: last_ts = ts`. -/
def tsMaxStep (l : Option Rat) (tr : Trade) : Option Rat :=
  match tr.timestamp with
  | none => l
  | some t =>
    match l with
    | none => some t
    | some v => if v < t then some t else some v

/-- Loop state of `compute_metrics`: the notional list `vals`, the trader
set, and the running first/last timestamps. -/
structure MState where
  vals : List Rat
  traders : Finset String
  first : Option Rat
  last : Option Rat

def mstep (st : MState) (tr : Trade) : MState :=
  ⟨st.vals ++ [usdOf tr], traderStep st.traders tr,
    tsMinStep st.first tr, tsMaxStep st.last tr⟩

/-- Python truthiness of the optional timestamps in
`if first_ts and last_ts` (None and 0 are falsy). -/
def optTruthy : Option Rat → Bool
  | none => false
  | some q => decide (q ≠ 0)

/-- Model of `compute_metrics` (main.py lines 160-192). -/
def computeMetrics (trades : List Trade) : MetricsBundle :=
  if trades = [] then zeroBundle
  else
    let st := trades.foldl mstep ⟨[], ∅, none, none⟩
    let total := st.vals.sum
    let n := st.vals.length
    let tcnt := st.traders.card
    let minv := match st.vals with
      | [] => 0
      | v :: vs => vs.foldl min v
    let maxv := match st.vals with
      | [] => 0
      | v :: vs => vs.foldl max v
    let avgsize := if n ≠ 0 then total / n else 0
    let avgvoltr := if tcnt ≠ 0 then total / tcnt else 0
    let active : Int :=
      if optTruthy st.first && optTruthy st.last then
        pyInt (((st.last.getD 0) - (st.first.getD 0)) / 86400) + 1
      else 0
    let avgday := if active ≠ 0 then (n : Rat) / (active : Rat) else 0
    ⟨tcnt, n, round6 total, round6 avgsize, round6 avgvoltr, round6 avgday,
      round6 minv, round6 maxv, active, st.traders⟩

def exWallet : String := "0xAbC"
def exTradeT0 : Trade := ⟨some 10, some (1 / 2), some exWallet, some 0⟩
def exTradeT1 : Trade := ⟨some 10, some (1 / 2), some exWallet, some 1000⟩
def exTradeNoW : Trade := ⟨some 1, some 1, none, some 5⟩

/-- C2, evaluated at the failing input: for a single trade with size 10,
price 0.5 and the numeric timestamp 0, the code yields the claimed
total_volume_usd = 5, total_trades = 1 and traders_count = 1, but
active_days = 0 and avg_trades_per_day = 0 where the claim requires 1: the
guard `if first_ts and last_ts` tests Python truthiness rather than
presence, so the numeric timestamp 0 is treated as absent. With any nonzero
timestamp (here 1000) the claimed values all hold. -/
theorem compute_metrics_ts_zero :
    (computeMetrics [exTradeT0]).total_volume_usd = 5 ∧
    (computeMetrics [exTradeT0]).total_trades = 1 ∧
    (computeMetrics [exTradeT0]).traders_count = 1 ∧
    (computeMetrics [exTradeT0]).active_days = 0 ∧
    (computeMetrics [exTradeT0]).avg_trades_per_day = 0 ∧
    (computeMetrics [exTradeT1]).total_volume_usd = 5 ∧
    (computeMetrics [exTradeT1]).active_days = 1 ∧
    (computeMetrics [exTradeT1]).avg_trades_per_day = 1 := by
  refine ⟨by decide, by decide, by decide, by decide, by decide, by decide,
    by decide, by decide⟩

lemma round6_zero : round6 0 = 0 := by
  simp [round6]

/-- C5: `compute_metrics` is total on trade lists; the empty list yields the
all-zero bundle, and each division is guarded so that the quotient is 0 when
its denominator (trade count, trader count, active days) is 0. -/
theorem compute_metrics_total :
    computeMetrics [] = zeroBundle ∧
    ∀ trades : List Trade,
      ((computeMetrics trades).total_trades = 0 →
        (computeMetrics trades).avg_trade_size_usd = 0) ∧
      ((computeMetrics trades).traders_count = 0 →
        (computeMetrics trades).avg_volume_per_trader = 0) ∧
      ((computeMetrics trades).active_days = 0 →
        (computeMetrics trades).avg_trades_per_day = 0) := by
  constructor
  · rfl
  · intro trades
    by_cases h : trades = []
    · subst h
      exact ⟨fun _ => rfl, fun _ => rfl, fun _ => rfl⟩
    · simp only [computeMetrics, if_neg h]
      refine ⟨?_, ?_, ?_⟩
      · intro h0
        simp only [h0] at *
        simp [round6_zero]
      · intro h0
        simp only [h0] at *
        simp [round6_zero]
      · intro h0
        simp only [h0] at *
        simp [round6_zero]

/-- Witness for C5: a trade with no wallet gives zero traders and hence a
zero average volume per trader. -/
theorem compute_metrics_total_witness :
    (computeMetrics [exTradeNoW]).traders_count = 0 ∧
    (computeMetrics [exTradeNoW]).avg_volume_per_trader = 0 :=
  ⟨by decide, (compute_metrics_total.2 [exTradeNoW]).2.1 (by decide)⟩

lemma round6_mono {a b : Rat} (h : a ≤ b) : round6 a ≤ round6 b := by
  unfold round6
  have h2 : a * 1000000 ≤ b * 1000000 :=
    mul_le_mul_of_nonneg_right h (by norm_num)
  have h3 : round (a * 1000000) ≤ round (b * 1000000) := by
    rw [round_eq, round_eq]
    exact Int.floor_mono (by linarith)
  have h4 : ((round (a * 1000000) : Int) : Rat) ≤ ((round (b * 1000000) : Int) : Rat) := by
    exact_mod_cast h3
  exact div_le_div_of_nonneg_right h4 (by norm_num) |>.trans_eq rfl

lemma round6_nonneg {a : Rat} (h : 0 ≤ a) : 0 ≤ round6 a := by
  have := round6_mono h
  rwa [round6_zero] at this

lemma foldl_mstep_vals (trades : List Trade) :
    ∀ st : MState, (trades.foldl mstep st).vals = st.vals ++ trades.map usdOf := by
  induction trades with
  | nil => intro st; simp
  | cons t ts ih =>
    intro st
    simp only [List.foldl_cons, List.map_cons, ih, mstep]
    simp

lemma traderStep_card_le (s : Finset String) (tr : Trade) :
    (traderStep s tr).card ≤ s.card + 1 := by
  unfold traderStep
  by_cases h : pyLower (tr.proxyWallet.getD (String.mk [])) = String.mk []
  · simp [h]
  · simp only [if_neg h]
    exact Finset.card_insert_le _ _

lemma foldl_mstep_traders_card (trades : List Trade) :
    ∀ st : MState,
      (trades.foldl mstep st).traders.card ≤ st.traders.card + trades.length := by
  induction trades with
  | nil => intro st; simp
  | cons t ts ih =>
    intro st
    simp only [List.foldl_cons, List.length_cons]
    have h1 := ih (mstep st t)
    have h2 : (mstep st t).traders.card ≤ st.traders.card + 1 :=
      traderStep_card_le st.traders t
    omega

/-- The first/last timestamp fields are either both unset or both set with
first at most last. -/
def tsOk (st : MState) : Prop :=
  (st.first = none ∧ st.last = none) ∨
    (∃ f l, st.first = some f ∧ st.last = some l ∧ f ≤ l)

lemma mstep_tsOk (st : MState) (tr : Trade) (h : tsOk st) : tsOk (mstep st tr) := by
  cases ht : tr.timestamp with
  | none =>
    cases h with
    | inl h0 => exact Or.inl (by simp [mstep, tsMinStep, tsMaxStep, ht, h0.1, h0.2])
    | inr h1 =>
      obtain ⟨f, l, hf, hl, hfl⟩ := h1
      exact Or.inr ⟨f, l, by simp [mstep, tsMinStep, ht, hf], by simp [mstep, tsMaxStep, ht, hl], hfl⟩
  | some t =>
    cases h with
    | inl h0 =>
      refine Or.inr ⟨t, t, ?_, ?_, le_refl t⟩
      · simp [mstep, tsMinStep, ht, h0.1]
      · simp [mstep, tsMaxStep, ht, h0.2]
    | inr h1 =>
      obtain ⟨f, l, hf, hl, hfl⟩ := h1
      refine Or.inr ⟨if t < f then t else f, if l < t then t else l, ?_, ?_, ?_⟩
      · simp only [mstep, tsMinStep, ht, hf]
        split_ifs <;> rfl
      · simp only [mstep, tsMaxStep, ht, hl]
        split_ifs <;> rfl
      · by_cases h1 : t < f
        · by_cases h2 : l < t
          · simp [h1, h2]
          · simp only [if_pos h1, if_neg h2]
            linarith
        · by_cases h2 : l < t
          · simp only [if_neg h1, if_pos h2]
            linarith
          · simp only [if_neg h1, if_neg h2]
            exact hfl

lemma foldl_mstep_tsOk (trades : List Trade) :
    ∀ st : MState, tsOk st → tsOk (trades.foldl mstep st) := by
  induction trades with
  | nil => intro st h; exact h
  | cons t ts ih =>
    intro st h
    exact ih (mstep st t) (mstep_tsOk st t h)

lemma foldl_min_le_init (v : Rat) (vs : List Rat) : vs.foldl min v ≤ v := by
  induction vs generalizing v with
  | nil => exact le_refl v
  | cons x xs ih =>
    simp only [List.foldl_cons]
    exact (ih (min v x)).trans (min_le_left v x)

lemma le_foldl_max_init (v : Rat) (vs : List Rat) : v ≤ vs.foldl max v := by
  induction vs generalizing v with
  | nil => exact le_refl v
  | cons x xs ih =>
    simp only [List.foldl_cons]
    exact (le_max_left v x).trans (ih (max v x))

lemma foldl_min_nonneg (v : Rat) (vs : List Rat) (hv : 0 ≤ v)
    (hvs : ∀ x ∈ vs, 0 ≤ x) : 0 ≤ vs.foldl min v := by
  induction vs generalizing v with
  | nil => exact hv
  | cons x xs ih =>
    simp only [List.foldl_cons]
    exact ih (min v x) (le_min hv (hvs x (List.mem_cons_self _ _)))
      (fun y hy => hvs y (List.mem_cons_of_mem x hy))

lemma usdOf_nonneg (tr : Trade) : 0 ≤ usdOf tr := abs_nonneg _

/-- C10: for every trade list the bundle satisfies
`0 ≤ min_trade_size_usd ≤ max_trade_size_usd` (notionals are absolute
values), `traders_count ≤ total_trades`, and `total_volume_usd`,
`total_trades`, `traders_count` (naturals by type) and `active_days` are
non-negative. -/
theorem compute_metrics_invariants (trades : List Trade) :
    0 ≤ (computeMetrics trades).min_trade_size_usd ∧
    (computeMetrics trades).min_trade_size_usd ≤
      (computeMetrics trades).max_trade_size_usd ∧
    (computeMetrics trades).traders_count ≤ (computeMetrics trades).total_trades ∧
    0 ≤ (computeMetrics trades).total_volume_usd ∧
    0 ≤ (computeMetrics trades).active_days := by
  cases trades with
  | nil => exact ⟨by decide, by decide, by decide, by decide, by decide⟩
  | cons t0 ts0 =>
    have hne : (t0 :: ts0 : List Trade) ≠ [] := by simp
    simp only [computeMetrics, if_neg hne]
    have hvals : ((t0 :: ts0).foldl mstep ⟨[], ∅, none, none⟩).vals =
        usdOf t0 :: ts0.map usdOf := by
      rw [foldl_mstep_vals]
      simp
    have hmapnn : ∀ x ∈ ts0.map usdOf, (0 : Rat) ≤ x := by
      intro x hx
      obtain ⟨tr, _, rfl⟩ := List.mem_map.mp hx
      exact usdOf_nonneg tr
    rw [hvals]
    refine ⟨?_, ?_, ?_, ?_, ?_⟩
    · exact round6_nonneg (foldl_min_nonneg (usdOf t0) (ts0.map usdOf)
        (usdOf_nonneg t0) hmapnn)
    · exact round6_mono ((foldl_min_le_init (usdOf t0) (ts0.map usdOf)).trans
        (le_foldl_max_init (usdOf t0) (ts0.map usdOf)))
    · have hc := foldl_mstep_traders_card (t0 :: ts0) ⟨[], ∅, none, none⟩
      simp only [List.length_cons, List.length_map] at hc ⊢
      simpa using hc
    · refine round6_nonneg (List.sum_nonneg ?_)
      intro x hx
      rcases List.mem_cons.mp hx with h1 | h2
      · exact h1 ▸ usdOf_nonneg t0
      · exact hmapnn x h2
    · have hok := foldl_mstep_tsOk (t0 :: ts0) ⟨[], ∅, none, none⟩
        (Or.inl ⟨rfl, rfl⟩)
      simp only [List.foldl_cons] at hok ⊢
      cases hok with
      | inl h0 =>
        simp [h0.1, optTruthy]
      | inr h1 =>
        obtain ⟨f, l, hf, hl, hfl⟩ := h1
        simp only [hf, hl, Option.getD_some]
        split
        · have hq : (0 : Rat) ≤ (l - f) / 86400 :=
            div_nonneg (sub_nonneg.mpr hfl) (by norm_num)
          have hfl0 : (0 : Int) ≤ ⌊(l - f) / 86400⌋ := Int.floor_nonneg.mpr hq
          unfold pyInt
          rw [if_neg (not_lt.mpr hq)]
          omega
        · exact le_refl 0

/-! ### Event aggregation `aggregate_events` (main.py lines 210-247) -/

/-- One market record, per the data model. Both `conditionId` and
`condition_id` are carried because the source reads both keys. -/
structure Market where
  id : String
  slug : String
  conditionId : Option String
  condition_id : Option String
  volume : Option Rat
  question : String
deriving DecidableEq

/-- The volume key of the source: `float(x.get("volume", 0) or 0.0)` —
missing or falsy (0) volumes become 0. -/
def volF (m : Market) : Rat := m.volume.getD 0

/-- `groups.setdefault(bslug, []).append(m)`: append to the existing group
of that key, or create a new group at the end (Python dicts preserve
insertion order). -/
def addToGroups : List (String × List Market) → String → Market →
    List (String × List Market)
  | [], k, m => [(k, [m])]
  | (k', l) :: rest, k, m =>
    if k' = k then (k', l ++ [m]) :: rest
    else (k', l) :: addToGroups rest k m

/-- The grouping loop of `aggregate_events` (lines 212-216). -/
def groupBySlug (markets : List Market) : List (String × List Market) :=
  markets.foldl (fun gs m => addToGroups gs (base_slug m.slug) m) []

/-- One comparison step of Python `max(mkts, key=...)`: the current best is
replaced only when the new key is strictly greater, so the first-encountered
maximum survives ties. -/
def repStep (best m : Market) : Market :=
  if volF best < volF m then m else best

def dummyMarket : Market :=
  ⟨String.mk [], String.mk [], none, none, none, String.mk []⟩

/-- `rep = max(mkts, key=lambda x: float(x.get("volume",0) or 0.0))`; groups
are never empty, so the empty case is unreachable. -/
def pickRep : List Market → Market
  | [] => dummyMarket
  | m :: ms => ms.foldl repStep m

def optStrTruthy : Option String → Bool
  | none => false
  | some s => !s.isEmpty

/-- Python `a or b` on optional strings (an empty string is falsy). -/
def pyOrStr (a b : Option String) : Option String :=
  if optStrTruthy a then a else b

def polyEventBase : String := "https://polymarket.com/event/"

/-- `event_url` (main.py lines 125-126). -/
def event_url (b : String) : String :=
  if b.isEmpty then String.mk [] else polyEventBase ++ b

/-- One output row of `aggregate_events` (lines 228-246). -/
structure Row where
  event_key : String
  url : String
  markets_count : Nat
  unique_tokens : Nat
  total_volume_usd : Rat
  traders_count : Nat
  total_trades : Nat
  avg_trade_size_usd : Rat
  avg_volume_per_trader : Rat
  avg_trades_per_day : Rat
  min_trade_size_usd : Rat
  max_trade_size_usd : Rat
  active_days : Int
  rep_market_id : String
  rep_condition_id : String
  unique_events : Nat
  any_question : String
deriving DecidableEq

/-- Assembly of one row from one group (lines 221-246): representative by
maximum volume, trades fetched only when a condition id is truthy, group
volume summed over all markets of the group and rounded to 6 decimals. The
trade source is a parameter, standing for `fetch_trades_for_market`. -/
def mkRow (fetch : String → List Trade) (uniqueEvents : Nat)
    (p : String × List Market) : Row :=
  let bslug := p.1
  let mkts := p.2
  let rep := pickRep mkts
  let cond := pyOrStr rep.conditionId rep.condition_id
  let trades := if optStrTruthy cond then fetch (cond.getD (String.mk [])) else []
  let mm := computeMetrics trades
  ⟨bslug, event_url bslug, mkts.length, mkts.length,
    round6 ((mkts.map volF).sum),
    mm.traders_count, mm.total_trades, mm.avg_trade_size_usd,
    mm.avg_volume_per_trader, mm.avg_trades_per_day, mm.min_trade_size_usd,
    mm.max_trade_size_usd, mm.active_days, rep.id,
    cond.getD (String.mk []), uniqueEvents, rep.question⟩

/-- Model of `aggregate_events`. -/
def aggregate_events (fetch : String → List Trade) (markets : List Market) :
    List Row :=
  (groupBySlug markets).map (mkRow fetch (groupBySlug markets).length)

def emptyFetch : String → List Trade := fun _ => []
def exMktTiny : Market := ⟨"m0", "xyz", none, none, some (1 / 10000000), "q0"⟩
def exMktA : Market := ⟨"m1", "ev", none, none, some 5, "q1"⟩
def exMktB : Market := ⟨"m2", "ev", none, none, some 20, "q2"⟩
def exMktC : Market := ⟨"m3", "ev", none, none, some 3, "q3"⟩
def exSlugEv : String := "ev"

/-- Counterexample for C3 as stated: a group consisting of one market with
volume 10⁻⁷ has exact volume sum 10⁻⁷, but the emitted row carries
`round(sum, 6) = 0`, so the row's total is not the exact sum. -/
theorem aggregate_volume_cex :
    (aggregate_events emptyFetch [exMktTiny]).map Row.total_volume_usd = [0] ∧
    ([exMktTiny].map volF).sum = 1 / 10000000 ∧
    (0 : Rat) ≠ 1 / 10000000 := by
  refine ⟨by decide, by decide, by decide⟩

/-- C3 (amended): each output row's `total_volume_usd` equals the sum of the
`volume` field over every market of that row's group, rounded to 6 decimal
places — independent of which market is the representative, since the
formula never mentions it; for volumes expressible in at most 6 decimals the
rounding is exact, so a group with volumes 5, 20, 3 yields 28. -/
theorem aggregate_total_volume :
    (∀ (fetch : String → List Trade) (markets : List Market) (row : Row),
      row ∈ aggregate_events fetch markets →
      ∃ key mkts, (key, mkts) ∈ groupBySlug markets ∧ row.event_key = key ∧
        row.total_volume_usd = round6 ((mkts.map volF).sum)) ∧
    (aggregate_events emptyFetch [exMktA, exMktB, exMktC]).map
      Row.total_volume_usd = [28] := by
  constructor
  · intro fetch markets row h
    obtain ⟨p, hp, hrow⟩ := List.mem_map.mp h
    refine ⟨p.1, p.2, by simpa using hp, ?_, ?_⟩
    · rw [← hrow]
      rfl
    · rw [← hrow]
      rfl
  · decide

/-- Witness for the amended C3: the single group of the three example
markets, whose row totals round6 (5 + 20 + 3) = 28. -/
theorem aggregate_total_volume_witness :
    ∃ key mkts, (key, mkts) ∈ groupBySlug [exMktA, exMktB, exMktC] ∧
      (mkRow emptyFetch 1 (exSlugEv, [exMktA, exMktB, exMktC])).event_key = key ∧
      (mkRow emptyFetch 1 (exSlugEv, [exMktA, exMktB, exMktC])).total_volume_usd =
        round6 ((mkts.map volF).sum) :=
  aggregate_total_volume.1 emptyFetch [exMktA, exMktB, exMktC]
    (mkRow emptyFetch 1 (exSlugEv, [exMktA, exMktB, exMktC])) (by decide)

lemma pick_aux (ms : List Market) :
    ∀ b : Market, ∃ j : Nat, ∃ hj : j < (b :: ms).length,
      (b :: ms).get ⟨j, hj⟩ = ms.foldl repStep b ∧
      (∀ m ∈ b :: ms, volF m ≤ volF (ms.foldl repStep b)) ∧
      (∀ m ∈ (b :: ms).take j, volF m < volF (ms.foldl repStep b)) := by
  induction ms with
  | nil =>
    intro b
    refine ⟨0, by simp, rfl, ?_, ?_⟩
    · intro m hm
      rw [List.mem_singleton] at hm
      subst hm
      exact le_refl _
    · intro m hm
      simp at hm
  | cons x xs ih =>
    intro b
    simp only [List.foldl_cons]
    by_cases hbx : volF b < volF x
    · have hrs : repStep b x = x := if_pos hbx
      rw [hrs]
      obtain ⟨j, hj, hget, hle, hstrict⟩ := ih x
      have hxle : volF x ≤ volF (xs.foldl repStep x) :=
        hle x (List.mem_cons_self x xs)
      refine ⟨j + 1, by simp only [List.length_cons] at hj ⊢; omega, ?_, ?_, ?_⟩
      · exact hget
      · intro m hm
        rcases List.mem_cons.mp hm with rfl | hm2
        · exact le_of_lt (lt_of_lt_of_le hbx hxle)
        · exact hle m hm2
      · intro m hm
        rw [List.take_succ_cons] at hm
        rcases List.mem_cons.mp hm with rfl | hm2
        · exact lt_of_lt_of_le hbx hxle
        · exact hstrict m hm2
    · have hrs : repStep b x = b := if_neg hbx
      rw [hrs]
      obtain ⟨j, hj, hget, hle, hstrict⟩ := ih b
      have hble : volF b ≤ volF (xs.foldl repStep b) :=
        hle b (List.mem_cons_self b xs)
      have hxle : volF x ≤ volF (xs.foldl repStep b) :=
        le_trans (not_lt.mp hbx) hble
      cases j with
      | zero =>
        refine ⟨0, by simp, ?_, ?_, ?_⟩
        · exact hget
        · intro m hm
          rcases List.mem_cons.mp hm with rfl | hm2
          · exact hble
          · rcases List.mem_cons.mp hm2 with rfl | hm3
            · exact hxle
            · exact hle m (List.mem_cons_of_mem b hm3)
        · intro m hm
          simp at hm
      | succ j' =>
        have hj' : j' < xs.length := by
          simp only [List.length_cons] at hj
          omega
        refine ⟨j' + 2, by simp only [List.length_cons]; omega, ?_, ?_, ?_⟩
        · exact hget
        · intro m hm
          rcases List.mem_cons.mp hm with rfl | hm2
          · exact hble
          · rcases List.mem_cons.mp hm2 with rfl | hm3
            · exact hxle
            · exact hle m (List.mem_cons_of_mem b hm3)
        · intro m hm
          have hbstrict : volF b < volF (xs.foldl repStep b) := by
            have := hstrict b (by rw [List.take_succ_cons]; exact List.mem_cons_self b _)
            exact this
          rw [List.take_succ_cons, List.take_succ_cons] at hm
          rcases List.mem_cons.mp hm with rfl | hm2
          · exact hbstrict
          · rcases List.mem_cons.mp hm2 with rfl | hm3
            · exact lt_of_le_of_lt (not_lt.mp hbx) hbstrict
            · refine hstrict m ?_
              rw [List.take_succ_cons]
              exact List.mem_cons_of_mem b hm3

lemma addToGroups_nonempty (gs : List (String × List Market)) (k : String)
    (m : Market) (h : ∀ p ∈ gs, p.2 ≠ []) :
    ∀ p ∈ addToGroups gs k m, p.2 ≠ [] := by
  induction gs with
  | nil =>
    intro p hp
    simp only [addToGroups] at hp
    rw [List.mem_singleton] at hp
    subst hp
    simp
  | cons g rest ih =>
    intro p hp
    obtain ⟨k', l⟩ := g
    simp only [addToGroups] at hp
    by_cases hk : k' = k
    · rw [if_pos hk] at hp
      rcases List.mem_cons.mp hp with rfl | hp2
      · simp
      · exact h _ (List.mem_cons_of_mem _ hp2)
    · rw [if_neg hk] at hp
      rcases List.mem_cons.mp hp with rfl | hp2
      · exact h _ (List.mem_cons_self _ _)
      · exact ih (fun q hq => h q (List.mem_cons_of_mem _ hq)) p hp2

lemma groupBySlug_nonempty (markets : List Market) :
    ∀ p ∈ groupBySlug markets, p.2 ≠ [] := by
  have hgen : ∀ (ms : List Market) (gs : List (String × List Market)),
      (∀ p ∈ gs, p.2 ≠ []) →
      ∀ p ∈ ms.foldl (fun gs m => addToGroups gs (base_slug m.slug) m) gs,
        p.2 ≠ [] := by
    intro ms
    induction ms with
    | nil => intro gs h; exact h
    | cons m ms ih =>
      intro gs h
      exact ih _ (addToGroups_nonempty gs (base_slug m.slug) m h)
  exact hgen markets [] (by simp)

/-- C6: each emitted row's representative is `pickRep` of its group, and
`pickRep` selects the first-encountered market attaining the maximum volume:
it is the `j`-th market of the group for some `j`, every group member's
volume is at most its volume, and every member strictly before position `j`
has strictly smaller volume (so ties are broken in favour of the earlier
market). -/
theorem aggregate_rep_selection :
    ∀ (fetch : String → List Trade) (markets : List Market) (row : Row),
      row ∈ aggregate_events fetch markets →
      ∃ key mkts, (key, mkts) ∈ groupBySlug markets ∧
        row.rep_market_id = (pickRep mkts).id ∧
        ∃ j : Nat, ∃ hj : j < mkts.length,
          mkts.get ⟨j, hj⟩ = pickRep mkts ∧
          (∀ m ∈ mkts, volF m ≤ volF (pickRep mkts)) ∧
          (∀ m ∈ mkts.take j, volF m < volF (pickRep mkts)) := by
  intro fetch markets row h
  obtain ⟨p, hp, hrow⟩ := List.mem_map.mp h
  have hne : p.2 ≠ [] := groupBySlug_nonempty markets p hp
  refine ⟨p.1, p.2, by simpa using hp, ?_, ?_⟩
  · rw [← hrow]
    rfl
  · obtain ⟨b, ms, hbm⟩ := List.exists_cons_of_ne_nil hne
    rw [hbm]
    obtain ⟨j, hj, hget, hle, hstrict⟩ := pick_aux ms b
    exact ⟨j, hj, hget, hle, hstrict⟩

def exTieA : Market := ⟨"t1", "ev", none, none, some 10, "q1"⟩
def exTieB : Market := ⟨"t2", "ev", none, none, some 20, "q2"⟩
def exTieC : Market := ⟨"t3", "ev", none, none, some 20, "q3"⟩

/-- Witness for C6: the theorem applied to a group with a tie on the maximum
volume (10, 20, 20); the first-encountered maximum, `t2`, is picked. -/
theorem aggregate_rep_selection_witness :
    (∃ key mkts, (key, mkts) ∈ groupBySlug [exTieA, exTieB, exTieC] ∧
      (mkRow emptyFetch 1 (exSlugEv, [exTieA, exTieB, exTieC])).rep_market_id =
        (pickRep mkts).id ∧
      ∃ j : Nat, ∃ hj : j < mkts.length,
        mkts.get ⟨j, hj⟩ = pickRep mkts ∧
        (∀ m ∈ mkts, volF m ≤ volF (pickRep mkts)) ∧
        (∀ m ∈ mkts.take j, volF m < volF (pickRep mkts))) ∧
    (pickRep [exTieA, exTieB, exTieC]).id = "t2" :=
  ⟨aggregate_rep_selection emptyFetch [exTieA, exTieB, exTieC]
    (mkRow emptyFetch 1 (exSlugEv, [exTieA, exTieB, exTieC])) (by decide),
   by decide⟩
